import Mathlib

/-!
Shallow embedding of the SanamLuang correction-rule engine
(globalPlugins/SanamLuang/__init__.py).

Python strings are modelled as lists of characters (Str).  A correction
entry (a Python dict with keys "value", "is_regex", "replacement") is
modelled by the structure Entry; a dict on which entry.get("value")
returns None behaves, everywhere the engine reads it, exactly like one
whose value is the empty string, and is modelled as such.  Python re.sub
is an external library collaborator and is modelled by an oracle
argument: given a pattern source, a replacement and a text it either
returns the substituted text or signals re.error, the one exception
class the source catches.  The durable records (the user configuration
file and the bundled default-dictionary file) are modelled as explicit
file states; an i/o failure while writing is an external condition
outside the model, so a modelled write always succeeds.
-/

abbrev Str := List Char

/-- One correction entry: the dict with fields WORD_VALUE, WORD_IS_REGEX
and WORD_REPLACEMENT used throughout the source. -/
structure Entry where
  value : Str
  is_regex : Bool
  replacement : Str
deriving DecidableEq

/-- Uniqueness key of an entry: its (pattern, isRegex) pair. -/
def Entry.key (e : Entry) : Str × Bool := (e.value, e.is_regex)

/-- Sort key used by SanamLuangConfig: x[WORD_VALUE].lower(). -/
def Entry.lowerValue (e : Entry) : Str := e.value.map Char.toLower

/-- Comparison underlying self.entries.sort(key=lambda x: x[WORD_VALUE].lower()):
lexicographic order on the lowercased pattern, as Python compares strings. -/
def entryLe (a b : Entry) : Prop := a.lowerValue ≤ b.lowerValue

instance : DecidableRel entryLe :=
  fun a b => inferInstanceAs (Decidable (a.lowerValue ≤ b.lowerValue))

instance : IsTotal Entry entryLe := ⟨fun a b => le_total a.lowerValue b.lowerValue⟩

instance : IsTrans Entry entryLe := ⟨fun _ _ _ h1 h2 => le_trans h1 h2⟩

/-- Model of self.entries.sort(key=lambda x: x[WORD_VALUE].lower()).
Python list.sort is a stable sort; on a total transitive comparison a
stable sort computes the same list as insertion sort. -/
def sortEntries (l : List Entry) : List Entry := List.insertionSort entryLe l

/-- JSON values, as far as the configuration code manipulates them. -/
inductive Json where
  | str (s : Str)
  | jbool (b : Bool)
  | arr (items : List Json)
  | obj (fields : List (Str × Json))

/-- Field access on a parsed JSON object, modelling Python dict lookup.
The documents this code writes never repeat a key. -/
def Json.lookupField : List (Str × Json) → Str → Option Json
  | [], _ => none
  | (k, v) :: rest, k2 => if k = k2 then some v else Json.lookupField rest k2

/-- String content of a JSON value, used where the source keeps a raw
JSON value in a string position.  Non-string values in such positions do
not occur in documents this code itself writes and are modelled as the
empty string. -/
def Json.asStr : Json → Str
  | Json.str s => s
  | _ => []

/-- Boolean content of a JSON value, mirroring the False defaults of the
entry.get calls in the source; non-boolean values in such positions do
not occur in documents this code itself writes. -/
def Json.asBool : Json → Bool
  | Json.jbool b => b
  | _ => false

/-- State of a durable file as the loaders see it: missing, present but
not valid JSON (json.load raises), or parsed JSON data. -/
inductive FileState where
  | absent
  | unparseable
  | parsed (data : Json)

/-- Built-in fallback entries of _load_default_dictionary (source lines
83-90 and 95-102): six Thai vowel-sign corrections. -/
def builtinDefaultEntries : List Entry :=
  [⟨"ำ่".toList, false, "่ำ".toList⟩,
   ⟨"ำ้".toList, false, "้ำ".toList⟩,
   ⟨"เเ".toList, false, "แ".toList⟩,
   ⟨"ํา".toList, false, "ำ".toList⟩,
   ⟨"ํ่า".toList, false, "่ำ".toList⟩,
   ⟨"ํ้า".toList, false, "้ำ".toList⟩]

/-- Replacement extracted from a legacy {key: value} default-dictionary
item (source lines 64-67): a nested nonempty list of lists contributes
its first inner element, a bare string contributes itself, anything else
contributes the empty string. -/
def legacyReplacement : Json → Str
  | Json.arr (Json.arr inner :: _) =>
      match inner with
      | [] => []
      | v :: _ => v.asStr
  | Json.arr _ => []
  | Json.str s => s
  | _ => []

/-- Normalization of the legacy key/value fields of one default-dictionary
object item (source lines 63-73). -/
def normalizeLegacyFields (fields : List (Str × Json)) : List Entry :=
  fields.map (fun kv => ⟨kv.1, false, legacyReplacement kv.2⟩)

/-- Translation of the per-item branch of the _load_default_dictionary
loop (source lines 54-79): current-shape objects, legacy key/value
objects, bare strings; any other item is skipped. -/
def normalizeDictItem (item : Json) : List Entry :=
  match item with
  | Json.obj fields =>
      if (Json.lookupField fields "value".toList).isSome
          && (Json.lookupField fields "is_regex".toList).isSome then
        [⟨((Json.lookupField fields "value".toList).getD (Json.str [])).asStr,
          ((Json.lookupField fields "is_regex".toList).getD (Json.jbool false)).asBool,
          ((Json.lookupField fields "replacement".toList).getD (Json.str [])).asStr⟩]
      else normalizeLegacyFields fields
  | Json.str s => [⟨s, false, []⟩]
  | _ => []

def normalizeDictItems : List Json → List Entry
  | [] => []
  | item :: rest => normalizeDictItem item ++ normalizeDictItems rest

/-- Translation of _load_default_dictionary (source lines 44-104),
parameterised by the state of the bundled seed file: the file is read if
present, a missing or unreadable file falls back to the built-in six
entries, and parsed data that is not a list yields no entries. -/
def load_default_dictionary : FileState → List Entry
  | FileState.absent => builtinDefaultEntries
  | FileState.unparseable => builtinDefaultEntries
  | FileState.parsed (Json.arr items) => normalizeDictItems items
  | FileState.parsed _ => []

/-- Encoding of one entry as written by _save_config. -/
def encodeEntry (e : Entry) : Json :=
  Json.obj [("value".toList, Json.str e.value),
            ("is_regex".toList, Json.jbool e.is_regex),
            ("replacement".toList, Json.str e.replacement)]

/-- The document _save_config writes (source lines 141-145). -/
def encodeConfig (entries : List Entry) (enabled : Bool) : Json :=
  Json.obj [("entries".toList, Json.arr (entries.map encodeEntry)),
            ("enabled".toList, Json.jbool enabled),
            ("version".toList, Json.str "1.1".toList)]

/-- Reading one stored entry back into the dict shape that the rest of
the code accesses through entry.get: missing or non-string fields behave
there like their defaults. -/
def decodeEntry (j : Json) : Entry :=
  match j with
  | Json.obj fields =>
      ⟨((Json.lookupField fields "value".toList).getD (Json.str [])).asStr,
       ((Json.lookupField fields "is_regex".toList).getD (Json.jbool false)).asBool,
       ((Json.lookupField fields "replacement".toList).getD (Json.str [])).asStr⟩
  | _ => ⟨[], false, []⟩

def decodeEntries (j : Json) : List Entry :=
  match j with
  | Json.arr items => items.map decodeEntry
  | _ => []

/-- In-memory state of SanamLuangConfig together with the durable user
configuration record it reads and writes. -/
structure ConfigState where
  entries : List Entry
  enabled : Bool
  file : FileState

/-- Translation of _save_config (source lines 138-152): writes the
versioned document and reports success.  An i/o failure is an external
condition outside the model, so the modelled write succeeds. -/
def save_config (entries : List Entry) (enabled : Bool) : FileState × Bool :=
  (FileState.parsed (encodeConfig entries enabled), true)

/-- Translation of _load_config (source lines 106-136), parameterised by
the bundled dictionary file and the user configuration file.  Returns
the in-memory state together with the possibly rewritten configuration
file: only the file-absent branch calls _save_config; the exception
branch taken when json.load fails leaves the file as it was. -/
def load_config (dictFile : FileState) (file : FileState) : ConfigState :=
  match file with
  | FileState.parsed data =>
      match data with
      | Json.obj fields =>
          { entries := match Json.lookupField fields "entries".toList with
                       | some v => decodeEntries v
                       | none => []
            enabled := match Json.lookupField fields "enabled".toList with
                       | some v => v.asBool
                       | none => true
            file := file }
      | Json.arr items =>
          { entries := decodeEntries (Json.arr items), enabled := true, file := file }
      | _ => { entries := [], enabled := true, file := file }
  | FileState.absent =>
      let entries := load_default_dictionary dictFile
      { entries := entries, enabled := true, file := (save_config entries true).1 }
  | FileState.unparseable =>
      { entries := load_default_dictionary dictFile, enabled := true,
        file := file }

/-- Translation of add_entry (source lines 174-181). -/
def add_entry (st : ConfigState) (pattern : Str) (isRegex : Bool)
    (replacement : Str) : ConfigState × Bool :=
  if st.entries.any (fun d => d.value == pattern && d.is_regex == isRegex) then
    (st, false)
  else
    let entries := sortEntries (st.entries ++ [⟨pattern, isRegex, replacement⟩])
    let saved := save_config entries st.enabled
    ({ st with entries := entries, file := saved.1 }, saved.2)

/-- Translation of update_entry (source lines 183-204): locate the first
entry with the key of old_entry; if a different index holds the new key,
pop the located entry, otherwise replace it in place; then sort and
save.  The try/except wrapper of the source only guards dict indexing,
which the Entry structure makes total. -/
def update_entry (st : ConfigState) (old : Entry) (newPattern : Str)
    (newIsRegex : Bool) (newReplacement : Str) : ConfigState × Bool :=
  match st.entries.findIdx?
      (fun d => d.value == old.value && d.is_regex == old.is_regex) with
  | none => (st, false)
  | some index =>
      let entries1 :=
        if st.entries.enum.any
            (fun p => p.2.value == newPattern && p.2.is_regex == newIsRegex
              && p.1 != index) then
          st.entries.eraseIdx index
        else
          st.entries.set index ⟨newPattern, newIsRegex, newReplacement⟩
      let entries2 := sortEntries entries1
      let saved := save_config entries2 st.enabled
      ({ st with entries := entries2, file := saved.1 }, saved.2)

/-- Translation of remove_entry (source lines 206-212): Python
list.remove drops the first element equal (all three fields) to the
argument and raises ValueError when absent, in which case the except
branch returns false with no mutation. -/
def remove_entry (st : ConfigState) (entry : Entry) : ConfigState × Bool :=
  if entry ∈ st.entries then
    let entries := st.entries.erase entry
    let saved := save_config entries st.enabled
    ({ st with entries := entries, file := saved.1 }, saved.2)
  else
    (st, false)

/-- Translation of reset_to_defaults (source lines 214-216): the entry
list is replaced by the normalized default dictionary as is, with no
re-sort. -/
def reset_to_defaults (dictFile : FileState) (st : ConfigState) :
    ConfigState × Bool :=
  let entries := load_default_dictionary dictFile
  let saved := save_config entries st.enabled
  ({ st with entries := entries, file := saved.1 }, saved.2)

/-- Oracle modelling Python re.sub: pattern source, replacement and text
to either the substituted text or re.error, the exception class the
engine catches. -/
abbrev RegexOracle := Str → Str → Str → Except Unit Str

/-- Does the text begin with the pattern (the scanning step of Python
str.replace). -/
def strStartsWith : Str → Str → Bool
  | [], _ => true
  | _ :: _, [] => false
  | a :: as, b :: bs => a == b && strStartsWith as bs

/-- Worker for pyReplace, structurally recursive on a fuel that bounds
the text length from above: every step consumes at least one character
of the text, so with initial fuel t.length the fuel-exhausted case is
never reached (pyReplaceFuel_congr below makes the fuel-independence
precise). -/
def pyReplaceFuel (pat rep : Str) : Nat → Str → Str
  | _, [] => if pat.isEmpty then rep else []
  | 0, t => t
  | fuel + 1, c :: cs =>
      if pat.isEmpty then rep ++ c :: pyReplaceFuel pat rep fuel cs
      else if strStartsWith pat (c :: cs) then
        rep ++ pyReplaceFuel pat rep fuel (cs.drop (pat.length - 1))
      else c :: pyReplaceFuel pat rep fuel cs

/-- Model of Python text.replace(pattern, replacement): scans left to
right, replacing non-overlapping occurrences; an empty pattern matches
at every position. -/
def pyReplace (pat rep t : Str) : Str := pyReplaceFuel pat rep t.length t

theorem pyReplaceFuel_congr (pat rep : Str) :
    ∀ f1 f2 t, t.length ≤ f1 → t.length ≤ f2 →
      pyReplaceFuel pat rep f1 t = pyReplaceFuel pat rep f2 t := by
  intro f1
  induction f1 with
  | zero =>
      intro f2 t h1 _
      have : t = [] := List.eq_nil_of_length_eq_zero (Nat.le_zero.mp h1)
      subst this
      cases f2 <;> rfl
  | succ f ih =>
      intro f2 t h1 h2
      cases t with
      | nil => cases f2 <;> rfl
      | cons c cs =>
          cases f2 with
          | zero => simp at h2
          | succ g =>
              simp only [pyReplaceFuel]
              have hcs : cs.length ≤ f := Nat.lt_succ_iff.mp h1
              have hcs2 : cs.length ≤ g := Nat.lt_succ_iff.mp h2
              have hdrop : (cs.drop (pat.length - 1)).length ≤ f := by
                rw [List.length_drop]
                omega
              have hdrop2 : (cs.drop (pat.length - 1)).length ≤ g := by
                rw [List.length_drop]
                omega
              rw [ih g cs hcs hcs2, ih g (cs.drop (pat.length - 1)) hdrop hdrop2]

/-- Does the pattern occur as a contiguous substring of the text
(Python: pattern in text). -/
def occursIn (pat : Str) : Str → Bool
  | [] => pat.isEmpty
  | c :: cs => strStartsWith pat (c :: cs) || occursIn pat cs

/-- Rule partition common to both correction passes (source lines
469-477 and 503-511): entries whose pattern is falsy (missing or empty)
are dropped; the rest split into literal and regex rule lists, keeping
entry order. -/
def partitionRules : List Entry → List (Str × Str) × List (Str × Str)
  | [] => ([], [])
  | e :: rest =>
      if e.value.isEmpty then partitionRules rest
      else if e.is_regex then
        ((partitionRules rest).1, (e.value, e.replacement) :: (partitionRules rest).2)
      else
        ((e.value, e.replacement) :: (partitionRules rest).1, (partitionRules rest).2)

/-- Order of the literal pass:
sorted(literal_entries, key=lambda x: len(x[0]), reverse=True). -/
def lenDescLe (a b : Str × Str) : Prop := b.1.length ≤ a.1.length

instance : DecidableRel lenDescLe := fun a b => Nat.decLe b.1.length a.1.length

instance : IsTotal (Str × Str) lenDescLe :=
  ⟨fun a b => Nat.le_total b.1.length a.1.length⟩

instance : IsTrans (Str × Str) lenDescLe :=
  ⟨fun _ _ _ h1 h2 => Nat.le_trans h2 h1⟩

/-- Model of sorted(literal_entries, key=lambda x: len(x[0]), reverse=True):
Python sorted is stable, and a stable sort on a total transitive
comparison computes the same list as insertion sort. -/
def sortDescLen (l : List (Str × Str)) : List (Str × Str) :=
  List.insertionSort lenDescLe l

/-- The literal pass (source lines 480-482 and 514-516): fold
text.replace over the length-descending literal rules. -/
def literalPass : List (Str × Str) → Str → Str
  | [], t => t
  | (p, r) :: rest, t => literalPass rest (pyReplace p r t)

/-- The regex pass (source lines 485-489 and 519-523): apply re.sub rule
by rule in entry order; a rule whose substitution signals re.error is
skipped and the running text is kept. -/
def regexPass (o : RegexOracle) : List (Str × Str) → Str → Str
  | [], t => t
  | (p, r) :: rest, t =>
      match o p r t with
      | Except.ok t2 => regexPass o rest t2
      | Except.error _ => regexPass o rest t

/-- The two correction passes, shared verbatim by _process_text_hook
(source lines 466-489) and _apply_corrections (source lines 500-523). -/
def correctionPasses (o : RegexOracle) (entries : List Entry) (t : Str) : Str :=
  regexPass o (partitionRules entries).2
    (literalPass (sortDescLen (partitionRules entries).1) t)

/-- Translation of _apply_corrections (source lines 493-525): the manual
apply path; note that it never consults the enabled flag. -/
def apply_corrections (o : RegexOracle) (st : ConfigState) (t : Str) : Str :=
  if st.entries.isEmpty then t else correctionPasses o st.entries t

/-- Translation of _process_text_hook (source lines 457-491): the text
this function hands on to the original processText.  locale and
symbolLevel are passed through untouched and omitted from the model. -/
def process_text_hook (o : RegexOracle) (st : ConfigState) (t : Str) : Str :=
  if !st.enabled then t
  else if st.entries.isEmpty then t
  else correctionPasses o st.entries t

/-! ## Concrete oracles used by witnesses -/

/-- Oracle for re.sub in situations where no regex pattern matches the
text: the substitution returns the text unchanged. -/
def identityOracle : RegexOracle := fun _ _ t => Except.ok t

/-- Oracle for re.sub when every pattern is malformed: every call
signals re.error. -/
def errorOracle : RegexOracle := fun _ _ _ => Except.error ()

/-! ## Shared structural lemmas -/

theorem correctionPasses_nil (o : RegexOracle) (t : Str) :
    correctionPasses o [] t = t := rfl

theorem apply_corrections_eq_passes (o : RegexOracle) (st : ConfigState)
    (t : Str) : apply_corrections o st t = correctionPasses o st.entries t := by
  cases hE : st.entries with
  | nil => simp [apply_corrections, hE, correctionPasses_nil]
  | cons e rest => simp [apply_corrections, hE]

theorem process_text_hook_cases (o : RegexOracle) (st : ConfigState) (t : Str) :
    process_text_hook o st t
      = if st.enabled then correctionPasses o st.entries t else t := by
  cases hEn : st.enabled with
  | false => simp [process_text_hook, hEn]
  | true =>
      cases hE : st.entries with
      | nil => simp [process_text_hook, hEn, hE, correctionPasses_nil]
      | cons e rest => simp [process_text_hook, hEn, hE]

/-! ## C1: literal pass prefers longer patterns -/

/-- C1.  The literal pass runs over the literal (non-regex) rules sorted
by descending pattern length, covering all of them (the processed list
is a permutation of the partitioned literal rules), each applied as a
global substring replacement; in particular the rule set of the literal
rules ab to X and abc to Y, in either order, corrects the input abc to
Y, not Xc. -/
theorem literal_rules_longest_pattern_first :
    ∀ (o : RegexOracle) (entries : List Entry) (enabled : Bool) (f : FileState),
      List.Sorted lenDescLe (sortDescLen (partitionRules entries).1)
      ∧ List.Perm (sortDescLen (partitionRules entries).1) (partitionRules entries).1
      ∧ apply_corrections o
          ⟨[⟨"ab".toList, false, "X".toList⟩, ⟨"abc".toList, false, "Y".toList⟩],
            enabled, f⟩ "abc".toList = "Y".toList
      ∧ apply_corrections o
          ⟨[⟨"abc".toList, false, "Y".toList⟩, ⟨"ab".toList, false, "X".toList⟩],
            enabled, f⟩ "abc".toList = "Y".toList :=
  fun _ entries _ _ =>
    ⟨List.sorted_insertionSort lenDescLe (partitionRules entries).1,
     List.perm_insertionSort lenDescLe (partitionRules entries).1, rfl, rfl⟩

/-! ## C2: enabled flag gates the hook but not manual apply -/

/-- C2.  The live passive path (_process_text_hook) passes the text on
unchanged whenever the enabled flag is false or the entry list is empty,
while _apply_corrections always runs the full correction passes on the
entry list and is insensitive to the enabled flag. -/
theorem hook_gated_manual_apply_ungated :
    ∀ (o : RegexOracle) (st : ConfigState) (t : Str),
      ((st.enabled = false ∨ st.entries = []) → process_text_hook o st t = t)
      ∧ apply_corrections o st t = correctionPasses o st.entries t
      ∧ apply_corrections o { st with enabled := !st.enabled } t
          = apply_corrections o st t := by
  intro o st t
  refine ⟨?_, apply_corrections_eq_passes o st t, rfl⟩
  rintro (h | h)
  · simp [process_text_hook_cases, h]
  · rw [process_text_hook_cases, h, correctionPasses_nil]
    simp

/-- Witness for C2 at a concrete disabled state: the spec example rule
replacing the two-character sequence of U+0E40 U+0E40 by U+0E41. -/
theorem hook_gated_manual_apply_ungated_witness :
    process_text_hook identityOracle
        ⟨[⟨"เเ".toList, false, "แ".toList⟩], false, FileState.absent⟩
        "เเก".toList = "เเก".toList
    ∧ apply_corrections identityOracle
        ⟨[⟨"เเ".toList, false, "แ".toList⟩], false, FileState.absent⟩
        "เเก".toList
      = correctionPasses identityOracle
          [⟨"เเ".toList, false, "แ".toList⟩] "เเก".toList :=
  ⟨(hook_gated_manual_apply_ungated identityOracle
      ⟨[⟨"เเ".toList, false, "แ".toList⟩], false, FileState.absent⟩
      "เเก".toList).1 (Or.inl rfl),
   (hook_gated_manual_apply_ungated identityOracle
      ⟨[⟨"เเ".toList, false, "แ".toList⟩], false, FileState.absent⟩
      "เเก".toList).2.1⟩

/-! ## C9: empty or missing patterns are inert -/

theorem partitionRules_middle_empty_value (pre post : List Entry) (rx : Bool)
    (rep : Str) :
    partitionRules (pre ++ ⟨[], rx, rep⟩ :: post) = partitionRules (pre ++ post) := by
  induction pre with
  | nil => rfl
  | cons e rest ih =>
      show partitionRules (e :: (rest ++ ⟨[], rx, rep⟩ :: post))
        = partitionRules (e :: (rest ++ post))
      simp only [partitionRules, ih]

/-- C9.  A rule whose pattern is the empty string (a dict whose value is
empty or missing reads back as such through entry.get) is excluded from
the literal and the regex pass alike, in both the hook path and the
manual path, so it never alters the output text. -/
theorem empty_pattern_rule_inert :
    ∀ (o : RegexOracle) (pre post : List Entry) (rx : Bool) (rep : Str)
      (enabled : Bool) (f : FileState) (t : Str),
      apply_corrections o ⟨pre ++ ⟨[], rx, rep⟩ :: post, enabled, f⟩ t
        = apply_corrections o ⟨pre ++ post, enabled, f⟩ t
      ∧ process_text_hook o ⟨pre ++ ⟨[], rx, rep⟩ :: post, enabled, f⟩ t
        = process_text_hook o ⟨pre ++ post, enabled, f⟩ t := by
  intro o pre post rx rep enabled f t
  have hpasses : correctionPasses o (pre ++ ⟨[], rx, rep⟩ :: post) t
      = correctionPasses o (pre ++ post) t := by
    simp only [correctionPasses, partitionRules_middle_empty_value]
  constructor
  · rw [apply_corrections_eq_passes, apply_corrections_eq_passes]
    exact hpasses
  · rw [process_text_hook_cases, process_text_hook_cases]
    cases enabled <;> simp [hpasses]

/-! ## C3: malformed regex rules are skipped, everything else applies -/

/-- C3.  A regex rule whose pattern or substitution raises re.error is
skipped by the regex pass without aborting it: the pass over any rule
list containing the bad rule equals the pass over the list with the bad
rule removed (the engine itself is a total function, so no exception
reaches the caller).  In particular a rule set made of one malformed
regex rule and the valid literal rule ab to X still corrects ab to X. -/
theorem invalid_regex_rule_skipped :
    ∀ (o : RegexOracle) (pre post : List (Str × Str)) (p r t : Str)
      (enabled : Bool) (f : FileState),
      (∀ s, o p r s = Except.error ()) →
      regexPass o (pre ++ (p, r) :: post) t = regexPass o (pre ++ post) t
      ∧ apply_corrections o
          ⟨[⟨p, true, r⟩, ⟨"ab".toList, false, "X".toList⟩], enabled, f⟩
          "ab".toList = "X".toList := by
  intro o pre post p r t enabled f h
  constructor
  · induction pre generalizing t with
    | nil => simp [regexPass, h t]
    | cons q rest ih =>
        cases q with
        | mk qp qr =>
            simp only [List.cons_append, regexPass]
            cases o qp qr t <;> exact ih _
  · cases hp : p with
    | nil =>
        subst hp
        rfl
    | cons c cs =>
        subst hp
        show regexPass o [(c :: cs, r)] "X".toList = "X".toList
        simp [regexPass, h]

/-- Witness for C3: the concrete always-failing oracle on the malformed
pattern of a lone open parenthesis. -/
theorem invalid_regex_rule_skipped_witness :
    regexPass errorOracle ([] ++ ("(".toList, []) :: []) "x".toList
      = regexPass errorOracle ([] ++ []) "x".toList
    ∧ apply_corrections errorOracle
        ⟨[⟨"(".toList, true, []⟩, ⟨"ab".toList, false, "X".toList⟩],
          true, FileState.absent⟩ "ab".toList = "X".toList :=
  invalid_regex_rule_skipped errorOracle [] [] "(".toList [] "x".toList true
    FileState.absent (fun _ => rfl)

/-! ## C4: adding a duplicate key is rejected without mutation -/

/-- C4.  add_entry with a (pattern, isRegex) key already present returns
false and leaves the whole state (entries and stored file) unchanged; in
particular a second add of the same key, whatever its replacement,
returns false on the state produced by the first add, leaving that state
untouched. -/
theorem sortEntries_perm (l : List Entry) : List.Perm (sortEntries l) l :=
  List.perm_insertionSort entryLe l

theorem sortEntries_sorted (l : List Entry) : List.Sorted entryLe (sortEntries l) :=
  List.sorted_insertionSort entryLe l

theorem add_entry_dup (st : ConfigState) (p : Str) (rx : Bool) (rep : Str)
    (h : st.entries.any (fun d => d.value == p && d.is_regex == rx) = true) :
    add_entry st p rx rep = (st, false) := by
  unfold add_entry
  rw [if_pos h]

theorem add_entry_fresh (st : ConfigState) (p : Str) (rx : Bool) (rep : Str)
    (h : st.entries.any (fun d => d.value == p && d.is_regex == rx) = false) :
    (add_entry st p rx rep).1.entries
      = sortEntries (st.entries ++ [⟨p, rx, rep⟩]) := by
  unfold add_entry
  rw [if_neg (by simp [h])]

theorem duplicate_add_rejected :
    ∀ (st : ConfigState) (p : Str) (rx : Bool) (rep rep2 : Str),
      ((∃ d ∈ st.entries, d.value = p ∧ d.is_regex = rx) →
          add_entry st p rx rep = (st, false))
      ∧ add_entry (add_entry st p rx rep).1 p rx rep2
          = ((add_entry st p rx rep).1, false) := by
  intro st p rx rep rep2
  have dup_of_mem : ∀ (l : List Entry),
      (∃ d ∈ l, d.value = p ∧ d.is_regex = rx) →
      l.any (fun d => d.value == p && d.is_regex == rx) = true := by
    rintro l ⟨d, hd, hv, hr⟩
    exact List.any_eq_true.mpr ⟨d, hd, by simp [hv, hr]⟩
  constructor
  · intro hex
    exact add_entry_dup st p rx rep (dup_of_mem st.entries hex)
  · have hmem : ∃ d ∈ (add_entry st p rx rep).1.entries,
        d.value = p ∧ d.is_regex = rx := by
      by_cases h : st.entries.any (fun d => d.value == p && d.is_regex == rx) = true
      · obtain ⟨d, hd, hpd⟩ := List.any_eq_true.mp h
        rw [add_entry_dup st p rx rep h]
        simp only [Bool.and_eq_true, beq_iff_eq] at hpd
        exact ⟨d, hd, hpd.1, hpd.2⟩
      · have hfalse : st.entries.any
            (fun d => d.value == p && d.is_regex == rx) = false := by
          simpa using h
        rw [add_entry_fresh st p rx rep hfalse]
        exact ⟨⟨p, rx, rep⟩,
          (sortEntries_perm (st.entries ++ [⟨p, rx, rep⟩])).mem_iff.mpr (by simp),
          rfl, rfl⟩
    exact add_entry_dup (add_entry st p rx rep).1 p rx rep2
      (dup_of_mem (add_entry st p rx rep).1.entries hmem)

/-- Witness for C4: adding the rule foo to bar on a state that already
holds it is rejected with the state unchanged. -/
theorem duplicate_add_rejected_witness :
    add_entry ⟨[⟨"foo".toList, false, "bar".toList⟩], true, FileState.absent⟩
        "foo".toList false "bar".toList
      = (⟨[⟨"foo".toList, false, "bar".toList⟩], true, FileState.absent⟩, false) :=
  (duplicate_add_rejected
      ⟨[⟨"foo".toList, false, "bar".toList⟩], true, FileState.absent⟩
      "foo".toList false "bar".toList "bar".toList).1
    ⟨⟨"foo".toList, false, "bar".toList⟩, List.mem_singleton.mpr rfl, rfl, rfl⟩

/-! ## C8: texts free of matches are fixed points -/

theorem pyReplaceFuel_no_occur (pat rep : Str) :
    ∀ (fuel : Nat) (t : Str), occursIn pat t = false →
      pyReplaceFuel pat rep fuel t = t := by
  intro fuel
  induction fuel with
  | zero =>
      intro t h
      cases t with
      | nil =>
          simp only [occursIn] at h
          simp [pyReplaceFuel, h]
      | cons c cs => rfl
  | succ f ih =>
      intro t h
      cases t with
      | nil =>
          simp only [occursIn] at h
          simp [pyReplaceFuel, h]
      | cons c cs =>
          simp only [occursIn, Bool.or_eq_false_iff] at h
          obtain ⟨h1, h2⟩ := h
          have hpe : pat.isEmpty = false := by
            cases pat with
            | nil => simp [strStartsWith] at h1
            | cons a as => rfl
          simp only [pyReplaceFuel, hpe, h1, Bool.false_eq_true, if_false]
          rw [ih cs h2]

theorem pyReplace_no_occur (pat rep t : Str) (h : occursIn pat t = false) :
    pyReplace pat rep t = t :=
  pyReplaceFuel_no_occur pat rep t.length t h

theorem literalPass_no_occur :
    ∀ (lits : List (Str × Str)) (t : Str),
      (∀ pr ∈ lits, occursIn pr.1 t = false) → literalPass lits t = t := by
  intro lits
  induction lits with
  | nil => intro t _; rfl
  | cons pr rest ih =>
      intro t h
      cases pr with
      | mk p r =>
          have h0 : occursIn p t = false := h (p, r) (by simp)
          simp only [literalPass]
          rw [pyReplace_no_occur p r t h0]
          exact ih t (fun q hq => h q (by simp [hq]))

theorem regexPass_no_match (o : RegexOracle) :
    ∀ (regs : List (Str × Str)) (t : Str),
      (∀ pr ∈ regs,
        o pr.1 pr.2 t = Except.ok t ∨ o pr.1 pr.2 t = Except.error ()) →
      regexPass o regs t = t := by
  intro regs
  induction regs with
  | nil => intro t _; rfl
  | cons pr rest ih =>
      intro t h
      cases pr with
      | mk p r =>
          have h0 := h (p, r) (by simp)
          simp only [regexPass]
          rcases h0 with h0 | h0 <;> rw [h0] <;>
            exact ih t (fun q hq => h q (by simp [hq]))

theorem mem_partition_fst :
    ∀ (es : List Entry) (pr : Str × Str), pr ∈ (partitionRules es).1 →
      ∃ e ∈ es, e.is_regex = false ∧ e.value = pr.1 ∧ e.replacement = pr.2
        ∧ pr.1 ≠ [] := by
  intro es
  induction es with
  | nil => intro pr h; simp [partitionRules] at h
  | cons e rest ih =>
      intro pr h
      cases hve : e.value.isEmpty with
      | true =>
          simp only [partitionRules, hve, if_true] at h
          obtain ⟨e2, he2, hprops⟩ := ih pr h
          exact ⟨e2, List.mem_cons_of_mem e he2, hprops⟩
      | false =>
          cases hre : e.is_regex with
          | true =>
              simp only [partitionRules, hve, hre, Bool.false_eq_true, if_false,
                if_true] at h
              obtain ⟨e2, he2, hprops⟩ := ih pr h
              exact ⟨e2, List.mem_cons_of_mem e he2, hprops⟩
          | false =>
              simp only [partitionRules, hve, hre, Bool.false_eq_true, if_false,
                List.mem_cons] at h
              rcases h with h | h
              · subst h
                refine ⟨e, List.mem_cons_self e rest, hre, rfl, rfl, ?_⟩
                intro hnil
                have hnil2 : e.value = [] := hnil
                rw [hnil2] at hve
                simp at hve
              · obtain ⟨e2, he2, hprops⟩ := ih pr h
                exact ⟨e2, List.mem_cons_of_mem e he2, hprops⟩

theorem mem_partition_snd :
    ∀ (es : List Entry) (pr : Str × Str), pr ∈ (partitionRules es).2 →
      ∃ e ∈ es, e.is_regex = true ∧ e.value = pr.1 ∧ e.replacement = pr.2
        ∧ pr.1 ≠ [] := by
  intro es
  induction es with
  | nil => intro pr h; simp [partitionRules] at h
  | cons e rest ih =>
      intro pr h
      cases hve : e.value.isEmpty with
      | true =>
          simp only [partitionRules, hve, if_true] at h
          obtain ⟨e2, he2, hprops⟩ := ih pr h
          exact ⟨e2, List.mem_cons_of_mem e he2, hprops⟩
      | false =>
          cases hre : e.is_regex with
          | false =>
              simp only [partitionRules, hve, hre, Bool.false_eq_true, if_false] at h
              obtain ⟨e2, he2, hprops⟩ := ih pr h
              exact ⟨e2, List.mem_cons_of_mem e he2, hprops⟩
          | true =>
              simp only [partitionRules, hve, hre, Bool.false_eq_true, if_false,
                if_true, List.mem_cons] at h
              rcases h with h | h
              · subst h
                refine ⟨e, List.mem_cons_self e rest, hre, rfl, rfl, ?_⟩
                intro hnil
                have hnil2 : e.value = [] := hnil
                rw [hnil2] at hve
                simp at hve
              · obtain ⟨e2, he2, hprops⟩ := ih pr h
                exact ⟨e2, List.mem_cons_of_mem e he2, hprops⟩

/-- C8.  If no literal pattern of the rule set occurs as a substring of
the text and every regex rule substitutes without effect on it (or
fails), the engine returns the text itself; consequently a second
application changes nothing either. -/
theorem unmatched_text_is_fixed_point :
    ∀ (o : RegexOracle) (st : ConfigState) (t : Str),
      (∀ e ∈ st.entries, e.is_regex = false → occursIn e.value t = false) →
      (∀ e ∈ st.entries, e.is_regex = true → e.value ≠ [] →
          o e.value e.replacement t = Except.ok t
          ∨ o e.value e.replacement t = Except.error ()) →
      apply_corrections o st t = t
      ∧ apply_corrections o st (apply_corrections o st t)
          = apply_corrections o st t := by
  intro o st t hlit hreg
  have hfix : apply_corrections o st t = t := by
    rw [apply_corrections_eq_passes]
    have hl : literalPass (sortDescLen (partitionRules st.entries).1) t = t := by
      apply literalPass_no_occur
      intro pr hpr
      have hpr2 : pr ∈ (partitionRules st.entries).1 :=
        ((List.perm_insertionSort lenDescLe (partitionRules st.entries).1).mem_iff).mp hpr
      obtain ⟨e, he, hre, hv, _, _⟩ := mem_partition_fst st.entries pr hpr2
      rw [← hv]
      exact hlit e he hre
    have hr : regexPass o (partitionRules st.entries).2 t = t := by
      apply regexPass_no_match
      intro pr hpr
      obtain ⟨e, he, hre, hv, hrep, hne⟩ := mem_partition_snd st.entries pr hpr
      rw [← hv, ← hrep]
      exact hreg e he hre (by rw [hv]; exact hne)
    simp only [correctionPasses]
    rw [hl, hr]
  exact ⟨hfix, by rw [hfix]; exact hfix⟩

/-- Witness for C8: a rule set with one Thai literal rule and one
malformed regex rule, on a latin text neither touches. -/
theorem unmatched_text_is_fixed_point_witness :
    apply_corrections errorOracle
        ⟨[⟨"เเ".toList, false, "แ".toList⟩, ⟨"[".toList, true, []⟩],
          true, FileState.absent⟩ "abc".toList = "abc".toList
    ∧ apply_corrections errorOracle
        ⟨[⟨"เเ".toList, false, "แ".toList⟩, ⟨"[".toList, true, []⟩],
          true, FileState.absent⟩
        (apply_corrections errorOracle
          ⟨[⟨"เเ".toList, false, "แ".toList⟩, ⟨"[".toList, true, []⟩],
            true, FileState.absent⟩ "abc".toList)
      = apply_corrections errorOracle
          ⟨[⟨"เเ".toList, false, "แ".toList⟩, ⟨"[".toList, true, []⟩],
            true, FileState.absent⟩ "abc".toList :=
  unmatched_text_is_fixed_point errorOracle
    ⟨[⟨"เเ".toList, false, "แ".toList⟩, ⟨"[".toList, true, []⟩],
      true, FileState.absent⟩ "abc".toList
    (by decide) (fun _ _ _ _ => Or.inr rfl)

/-! ## C6: bootstrap and fallback behaviour of the loader -/

theorem decodeEntries_map_encode (l : List Entry) :
    decodeEntries (Json.arr (l.map encodeEntry)) = l := by
  simp only [decodeEntries, List.map_map]
  have h : decodeEntry ∘ encodeEntry = id := funext (fun _ => rfl)
  rw [h, List.map_id]

/-- Counterexample to C6 as stated: when the persisted record exists but
fails to parse, _load_config falls back to the default dictionary with
enabled true, yet does not persist that fallback — the exception branch
(source lines 133-136) never calls _save_config, so the stored record
stays unparseable instead of becoming the encoded fallback. -/
theorem load_parse_failure_not_persisted :
    (load_config FileState.absent FileState.unparseable).entries
      = load_default_dictionary FileState.absent
    ∧ (load_config FileState.absent FileState.unparseable).enabled = true
    ∧ (load_config FileState.absent FileState.unparseable).file
        ≠ FileState.parsed
            (encodeConfig (load_default_dictionary FileState.absent) true) :=
  ⟨rfl, rfl, fun h => FileState.noConfusion h⟩

/-- C6 as amended.  When the persisted record is absent, load falls back
to the default dictionary with enabled true and immediately persists
that fallback; when the record exists but fails to parse, load falls
back the same way but leaves the record untouched.  In both cases the
fallback is non-empty whenever the seed dictionary normalizes to a
non-empty list (the built-in last-resort list provably is non-empty),
and a subsequent load returns the identical rule set. -/
theorem load_fallback_and_rebootstrap :
    ∀ (df file : FileState),
      file = FileState.absent ∨ file = FileState.unparseable →
      (load_config df file).entries = load_default_dictionary df
      ∧ (load_config df file).enabled = true
      ∧ (load_default_dictionary df ≠ [] → (load_config df file).entries ≠ [])
      ∧ (file = FileState.absent →
          (load_config df file).file
            = FileState.parsed (encodeConfig (load_default_dictionary df) true))
      ∧ (file = FileState.unparseable → (load_config df file).file = file)
      ∧ (load_config df (load_config df file).file).entries
          = (load_config df file).entries
      ∧ (load_config df (load_config df file).file).enabled
          = (load_config df file).enabled
      ∧ load_default_dictionary FileState.absent ≠ [] := by
  intro df file h
  rcases h with h | h
  · subst h
    exact ⟨rfl, rfl, fun hne => hne, fun _ => rfl,
      fun hcontra => FileState.noConfusion hcontra,
      decodeEntries_map_encode (load_default_dictionary df), rfl,
      fun hnil => List.noConfusion hnil⟩
  · subst h
    exact ⟨rfl, rfl, fun hne => hne,
      fun hcontra => FileState.noConfusion hcontra, fun _ => rfl, rfl, rfl,
      fun hnil => List.noConfusion hnil⟩

/-- Witness for the amended C6 at the fully concrete bootstrap state:
both files missing. -/
theorem load_fallback_and_rebootstrap_witness :
    (load_config FileState.absent FileState.absent).entries
      = load_default_dictionary FileState.absent
    ∧ (load_config FileState.absent FileState.absent).enabled = true
    ∧ (load_default_dictionary FileState.absent ≠ [] →
        (load_config FileState.absent FileState.absent).entries ≠ [])
    ∧ (FileState.absent = FileState.absent →
        (load_config FileState.absent FileState.absent).file
          = FileState.parsed
              (encodeConfig (load_default_dictionary FileState.absent) true))
    ∧ (FileState.absent = FileState.unparseable →
        (load_config FileState.absent FileState.absent).file = FileState.absent)
    ∧ (load_config FileState.absent
          (load_config FileState.absent FileState.absent).file).entries
        = (load_config FileState.absent FileState.absent).entries
    ∧ (load_config FileState.absent
          (load_config FileState.absent FileState.absent).file).enabled
        = (load_config FileState.absent FileState.absent).enabled
    ∧ load_default_dictionary FileState.absent ≠ [] :=
  load_fallback_and_rebootstrap FileState.absent FileState.absent (Or.inl rfl)

/-! ## C7: the sort invariant across the CRUD operations -/

theorem update_entry_not_found (st : ConfigState) (old : Entry) (np : Str)
    (nr : Bool) (nrep : Str)
    (h : st.entries.findIdx?
        (fun d => d.value == old.value && d.is_regex == old.is_regex) = none) :
    update_entry st old np nr nrep = (st, false) := by
  unfold update_entry
  rw [h]

theorem update_entry_collision (st : ConfigState) (old : Entry) (np : Str)
    (nr : Bool) (nrep : Str) (index : Nat)
    (hidx : st.entries.findIdx?
        (fun d => d.value == old.value && d.is_regex == old.is_regex) = some index)
    (hcol : st.entries.enum.any
        (fun q => q.2.value == np && q.2.is_regex == nr && q.1 != index) = true) :
    update_entry st old np nr nrep =
      ({ st with
          entries := sortEntries (st.entries.eraseIdx index),
          file := (save_config (sortEntries (st.entries.eraseIdx index))
            st.enabled).1 }, true) := by
  unfold update_entry
  rw [hidx]
  simp only [hcol, if_true, save_config]

theorem update_entry_replace (st : ConfigState) (old : Entry) (np : Str)
    (nr : Bool) (nrep : Str) (index : Nat)
    (hidx : st.entries.findIdx?
        (fun d => d.value == old.value && d.is_regex == old.is_regex) = some index)
    (hcol : st.entries.enum.any
        (fun q => q.2.value == np && q.2.is_regex == nr && q.1 != index) = false) :
    update_entry st old np nr nrep =
      ({ st with
          entries := sortEntries (st.entries.set index ⟨np, nr, nrep⟩),
          file := (save_config (sortEntries (st.entries.set index ⟨np, nr, nrep⟩))
            st.enabled).1 }, true) := by
  unfold update_entry
  rw [hidx]
  simp only [hcol, Bool.false_eq_true, if_false, save_config]

/-- C7.  Sortedness of the entry list by case-insensitive pattern is
preserved by every CRUD operation: add_entry and update_entry re-sort in
every mutating branch, remove_entry deletes from a sorted list, and
reset_to_defaults replaces the list by the normalized seed dictionary,
which preserves the invariant whenever that dictionary is sorted — as
the built-in fallback dictionary provably is. -/
theorem crud_preserves_sorted_entries :
    ∀ (df : FileState) (st : ConfigState) (p : Str) (rx : Bool) (rep : Str)
      (old : Entry) (np : Str) (nr : Bool) (nrep : Str) (ent : Entry),
      List.Sorted entryLe st.entries →
      List.Sorted entryLe (add_entry st p rx rep).1.entries
      ∧ List.Sorted entryLe (update_entry st old np nr nrep).1.entries
      ∧ List.Sorted entryLe (remove_entry st ent).1.entries
      ∧ (List.Sorted entryLe (load_default_dictionary df) →
          List.Sorted entryLe (reset_to_defaults df st).1.entries)
      ∧ List.Sorted entryLe (load_default_dictionary FileState.absent) := by
  intro df st p rx rep old np nr nrep ent hsorted
  refine ⟨?_, ?_, ?_, fun hs => hs, by decide⟩
  · by_cases h : st.entries.any (fun d => d.value == p && d.is_regex == rx) = true
    · rw [add_entry_dup st p rx rep h]
      exact hsorted
    · have hf : st.entries.any (fun d => d.value == p && d.is_regex == rx)
          = false := by simpa using h
      rw [add_entry_fresh st p rx rep hf]
      exact sortEntries_sorted _
  · cases hidx : st.entries.findIdx?
        (fun d => d.value == old.value && d.is_regex == old.is_regex) with
    | none =>
        rw [update_entry_not_found st old np nr nrep hidx]
        exact hsorted
    | some index =>
        by_cases hc : st.entries.enum.any
            (fun q => q.2.value == np && q.2.is_regex == nr && q.1 != index) = true
        · rw [update_entry_collision st old np nr nrep index hidx hc]
          exact sortEntries_sorted _
        · have hf : st.entries.enum.any
              (fun q => q.2.value == np && q.2.is_regex == nr && q.1 != index)
                = false := by simpa using hc
          rw [update_entry_replace st old np nr nrep index hidx hf]
          exact sortEntries_sorted _
  · by_cases hm : ent ∈ st.entries
    · have h1 : (remove_entry st ent).1.entries = st.entries.erase ent := by
        unfold remove_entry
        rw [if_pos hm]
      rw [h1]
      exact List.Pairwise.sublist (List.erase_sublist ent st.entries) hsorted
    · have h1 : remove_entry st ent = (st, false) := by
        unfold remove_entry
        rw [if_neg hm]
      rw [h1]
      exact hsorted

/-- Witness for C7 on a small concrete sorted state. -/
theorem crud_preserves_sorted_entries_witness :
    List.Sorted entryLe (add_entry
        ⟨[⟨"a".toList, false, []⟩, ⟨"b".toList, false, []⟩], true, FileState.absent⟩
        "c".toList false []).1.entries := by
  exact (crud_preserves_sorted_entries FileState.absent
    ⟨[⟨"a".toList, false, []⟩, ⟨"b".toList, false, []⟩], true, FileState.absent⟩
    "c".toList false [] ⟨"a".toList, false, []⟩ "b".toList false []
    ⟨"a".toList, false, []⟩ (by decide)).1

/-! ## C5 and C10: the update collision policy -/

/-- Uniqueness keys of a whole entry list. -/
def keysOf (l : List Entry) : List (Str × Bool) := l.map Entry.key

theorem keyPred_iff (old d : Entry) :
    (d.value == old.value && d.is_regex == old.is_regex) = true
      ↔ Entry.key d = Entry.key old := by
  simp [Entry.key, Prod.ext_iff]

theorem findIdx_key_none (l : List Entry) (old : Entry)
    (h : ∀ a ∈ l, Entry.key a ≠ Entry.key old) :
    l.findIdx? (fun d => d.value == old.value && d.is_regex == old.is_regex)
      = none := by
  rw [List.findIdx?_eq_none_iff]
  intro x hx
  cases hpx : (x.value == old.value && x.is_regex == old.is_regex) with
  | false => rfl
  | true => exact absurd ((keyPred_iff old x).mp hpx) (h x hx)

theorem findIdx_key_some (l : List Entry) (old : Entry)
    (hex : ∃ a ∈ l, Entry.key a = Entry.key old) :
    ∃ index,
      l.findIdx? (fun d => d.value == old.value && d.is_regex == old.is_regex)
        = some index
      ∧ ∃ h : index < l.length, Entry.key l[index] = Entry.key old := by
  have hne : l.findIdx?
      (fun d => d.value == old.value && d.is_regex == old.is_regex) ≠ none := by
    intro hnone
    obtain ⟨a, ha, hk⟩ := hex
    have h1 := List.findIdx?_eq_none_iff.mp hnone a ha
    rw [(keyPred_iff old a).mpr hk] at h1
    exact Bool.noConfusion h1
  obtain ⟨index, hidx⟩ := Option.ne_none_iff_exists'.mp hne
  have hspec := List.findIdx?_eq_some_iff_findIdx_eq.mp hidx
  obtain ⟨hlen, hfind⟩ := hspec
  subst hfind
  refine ⟨_, hidx, hlen, ?_⟩
  have hpred := @List.findIdx_getElem _
    (fun d => d.value == old.value && d.is_regex == old.is_regex) l hlen
  exact (keyPred_iff old _).mp hpred

theorem enum_any_collision (l : List Entry) (np : Str) (nr : Bool) (index : Nat)
    (hlt : index < l.length) (b : Entry) (hb : b ∈ l)
    (hkey : Entry.key b = (np, nr)) (hbne : b ≠ l[index]) :
    l.enum.any (fun q => q.2.value == np && q.2.is_regex == nr && q.1 != index)
      = true := by
  obtain ⟨j, hj, hgj⟩ := List.mem_iff_getElem.mp hb
  have hjne : j ≠ index := by
    intro hcontra
    subst hcontra
    exact hbne hgj.symm
  apply List.any_eq_true.mpr
  refine ⟨(j, b), ?_, ?_⟩
  · rw [List.mem_enum_iff_getElem?]
    show l[j]? = some b
    rw [List.getElem?_eq_getElem hj]
    exact congrArg some hgj
  · have h1 : b.value = np := congrArg Prod.fst hkey
    have h2 : b.is_regex = nr := congrArg Prod.snd hkey
    simp [h1, h2, hjne]

theorem entries_split (l : List Entry) (index : Nat) (h : index < l.length) :
    l.take index ++ l[index] :: l.drop (index + 1) = l := by
  rw [List.getElem_cons_drop l index h, List.take_append_drop]

theorem count_le_one_of_nodup {α : Type} [BEq α] [LawfulBEq α] {l : List α}
    (h : l.Nodup) (a : α) : l.count a ≤ 1 := by
  induction l with
  | nil => simp
  | cons x xs ih =>
      obtain ⟨hx, hxs⟩ := List.nodup_cons.mp h
      rw [List.count_cons]
      by_cases hax : x = a
      · subst hax
        have h0 : xs.count x = 0 := List.count_eq_zero.mpr hx
        simp [h0]
      · have hfalse : (x == a) = false := beq_eq_false_iff_ne.mpr hax
        simp [hfalse]
        exact ih hxs

theorem perm_count_eq {α : Type} [BEq α] {l1 l2 : List α}
    (h : List.Perm l1 l2) (a : α) : l1.count a = l2.count a := by
  rw [List.count_eq_countP, List.count_eq_countP]
  exact h.countP_eq _

/-- C5.  Under the rule-set uniqueness invariant, renaming an entry with
update_entry onto the key of a different existing entry removes the
original entry and leaves exactly one entry with the colliding key (and
none with the old key), never creating duplicates; while an update whose
old key is not present mutates nothing and returns false. -/
theorem update_collision_drops_original :
    ∀ (st : ConfigState) (old : Entry) (np : Str) (nr : Bool) (nrep : Str),
      (keysOf st.entries).Nodup →
      ((∀ a ∈ st.entries, Entry.key a ≠ Entry.key old) →
          update_entry st old np nr nrep = (st, false))
      ∧ ((∃ a ∈ st.entries, Entry.key a = Entry.key old) →
         (∃ b ∈ st.entries, Entry.key b = (np, nr) ∧ Entry.key b ≠ Entry.key old) →
          (update_entry st old np nr nrep).2 = true
          ∧ (keysOf (update_entry st old np nr nrep).1.entries).count (np, nr) = 1
          ∧ (keysOf (update_entry st old np nr nrep).1.entries).count
              (Entry.key old) = 0
          ∧ (keysOf (update_entry st old np nr nrep).1.entries).Nodup) := by
  intro st old np nr nrep hnodup
  constructor
  · intro hno
    exact update_entry_not_found st old np nr nrep (findIdx_key_none st.entries old hno)
  · intro hex hcol
    obtain ⟨index, hidx, hlt, hkeyidx⟩ := findIdx_key_some st.entries old hex
    obtain ⟨b, hb, hkeyb, hkeybne⟩ := hcol
    have hbne : b ≠ st.entries[index] := by
      intro hcontra
      apply hkeybne
      rw [hcontra]
      exact hkeyidx
    have hcond := enum_any_collision st.entries np nr index hlt b hb hkeyb hbne
    rw [update_entry_collision st old np nr nrep index hidx hcond]
    have herase := List.eraseIdx_eq_take_drop_succ st.entries index
    have hsplit := entries_split st.entries index hlt
    have hkeys : keysOf st.entries
        = keysOf (st.entries.take index)
          ++ Entry.key st.entries[index] :: keysOf (st.entries.drop (index + 1)) := by
      conv_lhs => rw [← hsplit]
      simp only [keysOf, List.map_append, List.map_cons]
    rw [hkeys] at hnodup
    have hmid := List.nodup_middle.mp hnodup
    obtain ⟨hknotin, hnodup2⟩ := List.nodup_cons.mp hmid
    have hmapapp : keysOf (st.entries.take index ++ st.entries.drop (index + 1))
        = keysOf (st.entries.take index) ++ keysOf (st.entries.drop (index + 1)) :=
      List.map_append Entry.key _ _
    have hkeyse : keysOf (st.entries.eraseIdx index)
        = keysOf (st.entries.take index) ++ keysOf (st.entries.drop (index + 1)) := by
      rw [herase]
      exact hmapapp
    have hperm : List.Perm (keysOf (sortEntries (st.entries.eraseIdx index)))
        (keysOf (st.entries.eraseIdx index)) :=
      (sortEntries_perm (st.entries.eraseIdx index)).map Entry.key
    have hbmem : b ∈ st.entries.take index ++ st.entries.drop (index + 1) := by
      have hb2 : b ∈ st.entries.take index
          ++ st.entries[index] :: st.entries.drop (index + 1) := by
        rw [hsplit]
        exact hb
      rcases List.mem_append.mp hb2 with h | h
      · exact List.mem_append.mpr (Or.inl h)
      · rcases List.mem_cons.mp h with h | h
        · exact absurd h hbne
        · exact List.mem_append.mpr (Or.inr h)
    have hle : (keysOf (st.entries.take index)
        ++ keysOf (st.entries.drop (index + 1))).count (np, nr) ≤ 1 :=
      count_le_one_of_nodup hnodup2 (np, nr)
    have hpos : 0 < (keysOf (st.entries.take index)
        ++ keysOf (st.entries.drop (index + 1))).count (np, nr) := by
      apply List.count_pos_iff.mpr
      rw [← hmapapp]
      exact List.mem_map.mpr ⟨b, hbmem, hkeyb⟩
    refine ⟨rfl, ?_, ?_, ?_⟩
    · rw [perm_count_eq hperm, hkeyse]
      omega
    · rw [perm_count_eq hperm, hkeyse, List.count_eq_zero, ← hkeyidx]
      exact hknotin
    · rw [hperm.nodup_iff, hkeyse]
      exact hnodup2

/-- Witness for C5 on the spec example: entries x and y, updating x onto
the key of y. -/
theorem update_collision_drops_original_witness :
    (update_entry
        ⟨[⟨"x".toList, false, "rx".toList⟩, ⟨"y".toList, false, "keep".toList⟩],
          true, FileState.absent⟩
        ⟨"x".toList, false, "rx".toList⟩ "y".toList false "newrep".toList).2 = true
    ∧ (keysOf (update_entry
        ⟨[⟨"x".toList, false, "rx".toList⟩, ⟨"y".toList, false, "keep".toList⟩],
          true, FileState.absent⟩
        ⟨"x".toList, false, "rx".toList⟩ "y".toList false
          "newrep".toList).1.entries).count ("y".toList, false) = 1
    ∧ (keysOf (update_entry
        ⟨[⟨"x".toList, false, "rx".toList⟩, ⟨"y".toList, false, "keep".toList⟩],
          true, FileState.absent⟩
        ⟨"x".toList, false, "rx".toList⟩ "y".toList false
          "newrep".toList).1.entries).count
        (Entry.key ⟨"x".toList, false, "rx".toList⟩) = 0
    ∧ (keysOf (update_entry
        ⟨[⟨"x".toList, false, "rx".toList⟩, ⟨"y".toList, false, "keep".toList⟩],
          true, FileState.absent⟩
        ⟨"x".toList, false, "rx".toList⟩ "y".toList false
          "newrep".toList).1.entries).Nodup :=
  (update_collision_drops_original
      ⟨[⟨"x".toList, false, "rx".toList⟩, ⟨"y".toList, false, "keep".toList⟩],
        true, FileState.absent⟩
      ⟨"x".toList, false, "rx".toList⟩ "y".toList false "newrep".toList
      (by decide)).2
    ⟨⟨"x".toList, false, "rx".toList⟩, by decide, rfl⟩
    ⟨⟨"y".toList, false, "keep".toList⟩, by decide, rfl, by decide⟩

/-- C10.  When update_entry resolves a key collision it only removes the
located original: the update returns true, the colliding entry survives
with all its fields (in particular its replacement) untouched, and the
pre-update entry list is a permutation of some old-keyed entry consed
onto the post-update list — so the new replacement argument is discarded
and no surviving entry is altered. -/
theorem update_collision_keeps_survivor_intact :
    ∀ (st : ConfigState) (old : Entry) (np : Str) (nr : Bool) (nrep : Str)
      (b : Entry),
      b ∈ st.entries → Entry.key b = (np, nr) →
      Entry.key b ≠ Entry.key old →
      (∃ a ∈ st.entries, Entry.key a = Entry.key old) →
      (update_entry st old np nr nrep).2 = true
      ∧ b ∈ (update_entry st old np nr nrep).1.entries
      ∧ ∃ a, Entry.key a = Entry.key old
          ∧ List.Perm st.entries
              (a :: (update_entry st old np nr nrep).1.entries) := by
  intro st old np nr nrep b hb hkeyb hkeybne hex
  obtain ⟨index, hidx, hlt, hkeyidx⟩ := findIdx_key_some st.entries old hex
  have hbne : b ≠ st.entries[index] := by
    intro hcontra
    apply hkeybne
    rw [hcontra]
    exact hkeyidx
  have hcond := enum_any_collision st.entries np nr index hlt b hb hkeyb hbne
  rw [update_entry_collision st old np nr nrep index hidx hcond]
  have herase := List.eraseIdx_eq_take_drop_succ st.entries index
  have hsplit := entries_split st.entries index hlt
  have hbmem : b ∈ st.entries.eraseIdx index := by
    rw [herase]
    have hb2 : b ∈ st.entries.take index
        ++ st.entries[index] :: st.entries.drop (index + 1) := by
      rw [hsplit]
      exact hb
    rcases List.mem_append.mp hb2 with h | h
    · exact List.mem_append.mpr (Or.inl h)
    · rcases List.mem_cons.mp h with h | h
      · exact absurd h hbne
      · exact List.mem_append.mpr (Or.inr h)
  refine ⟨rfl, ?_, ?_⟩
  · exact (sortEntries_perm (st.entries.eraseIdx index)).mem_iff.mpr hbmem
  · refine ⟨st.entries[index], hkeyidx, ?_⟩
    have h1 : List.Perm st.entries
        (st.entries[index] :: st.entries.eraseIdx index) := by
      conv_lhs => rw [← hsplit]
      rw [herase]
      exact List.perm_middle
    exact h1.trans (List.Perm.cons st.entries[index]
      (sortEntries_perm (st.entries.eraseIdx index)).symm)

/-- Witness for C10: the colliding entry keeps its replacement. -/
theorem update_collision_keeps_survivor_intact_witness :
    (update_entry
        ⟨[⟨"x".toList, false, "rx".toList⟩, ⟨"y".toList, false, "keep".toList⟩],
          true, FileState.absent⟩
        ⟨"x".toList, false, "rx".toList⟩ "y".toList false "zap".toList).2 = true
    ∧ ⟨"y".toList, false, "keep".toList⟩ ∈ (update_entry
        ⟨[⟨"x".toList, false, "rx".toList⟩, ⟨"y".toList, false, "keep".toList⟩],
          true, FileState.absent⟩
        ⟨"x".toList, false, "rx".toList⟩ "y".toList false "zap".toList).1.entries
    ∧ ∃ a, Entry.key a = Entry.key (⟨"x".toList, false, "rx".toList⟩ : Entry)
        ∧ List.Perm
            [(⟨"x".toList, false, "rx".toList⟩ : Entry),
              ⟨"y".toList, false, "keep".toList⟩]
            (a :: (update_entry
              ⟨[⟨"x".toList, false, "rx".toList⟩, ⟨"y".toList, false, "keep".toList⟩],
                true, FileState.absent⟩
              ⟨"x".toList, false, "rx".toList⟩ "y".toList false
                "zap".toList).1.entries) :=
  update_collision_keeps_survivor_intact
    ⟨[⟨"x".toList, false, "rx".toList⟩, ⟨"y".toList, false, "keep".toList⟩],
      true, FileState.absent⟩
    ⟨"x".toList, false, "rx".toList⟩ "y".toList false "zap".toList
    ⟨"y".toList, false, "keep".toList⟩
    (by decide) rfl (by decide)
    ⟨⟨"x".toList, false, "rx".toList⟩, by decide, rfl⟩
